import Mathlib

/-!
Verification development for the multi-source ranking aggregation engine
(`base_client.py` extraction pipeline, `rank_tracker.py` aggregation and
fan-out orchestration).  Python strings are modelled as `List Char`
(wrapped in `String` at the interface), Python `int` ranks as `Nat`, and
the floating-point average computation as exact rationals `ℚ`.
-/

namespace RankTracker

/-- Python whitespace characters recognised by `str.strip`, `str.split()`
and the regex class matching whitespace. -/
def isPySpace (c : Char) : Bool :=
  c == ' ' || c == '\t' || c == '\n' || c == '\r' || c == '\x0b' || c == '\x0c'

/-- Python `str.strip()` on a character list. -/
def pyStrip (l : List Char) : List Char :=
  ((l.dropWhile isPySpace).reverse.dropWhile isPySpace).reverse

/-- Python `str.lower()` (ASCII case folding, which covers the repo's data). -/
def lowerStr (s : String) : String := String.mk (s.data.map Char.toLower)

/-- `title.lower().strip()` — the deduplication / table key used throughout
`base_client.py` and `rank_tracker.py`. -/
def lowerTrim (s : String) : String := String.mk (pyStrip (s.data.map Char.toLower))

/-- Python `text.split('\n')`: `"" ↦ [""]`, separators do not merge. -/
def splitNl : List Char → List (List Char)
  | [] => [[]]
  | c :: rest =>
    if c = '\n' then [] :: splitNl rest
    else
      match splitNl rest with
      | [] => [[c]]
      | l :: ls => (c :: l) :: ls

/-- `listStartsWith pat l` : does `l` start with `pat`? -/
def listStartsWith : List Char → List Char → Bool
  | [], _ => true
  | _ :: _, [] => false
  | p :: ps, c :: cs => p == c && listStartsWith ps cs

/-- Worker for `replaceAll`: scan one character at a time; a positive `k`
means `k` characters of a previously matched occurrence remain to be
consumed.  When the pattern matches at the current position, the current
character plus `pat.length - 1` further characters are dropped, i.e. the
scan resumes right after the occurrence (left-to-right, non-overlapping,
exactly like Python `str.replace`). -/
def replaceAllGo (pat : List Char) : List Char → Nat → List Char
  | [], _ => []
  | _ :: rest, k + 1 => replaceAllGo pat rest k
  | c :: rest, 0 =>
    if listStartsWith pat (c :: rest) then replaceAllGo pat rest (pat.length - 1)
    else c :: replaceAllGo pat rest 0

/-- Python `s.replace(pat, '')` for a fixed non-empty pattern. -/
def replaceAll (pat : List Char) (l : List Char) : List Char :=
  if pat.isEmpty then l else replaceAllGo pat l 0

/-- Python `str.split()` (split on whitespace runs, dropping empties),
via an accumulator. -/
def pyWordsAux : List Char → List Char → List (List Char)
  | acc, [] => if acc.isEmpty then [] else [acc.reverse]
  | acc, c :: rest =>
    if isPySpace c then
      if acc.isEmpty then pyWordsAux [] rest else acc.reverse :: pyWordsAux [] rest
    else pyWordsAux (c :: acc) rest

def pyWords (l : List Char) : List (List Char) := pyWordsAux [] l

/-- `' '.join(words)`. -/
def joinSpace : List (List Char) → List Char
  | [] => []
  | w :: ws =>
    match ws with
    | [] => w
    | _ :: _ => w ++ ' ' :: joinSpace ws

/-! ## TextRankingExtractor (`base_client.py`) -/

/-- `RankResult` dataclass of `base_client.py`. -/
structure RankResult where
  rank : Nat
  title : String
  description : Option String := none
  source : Option String := none
deriving DecidableEq

/-- Digit string to `int` (`int(numbered_match.group(1))`). -/
def digitsToNat (ds : List Char) : Nat := ds.foldl (fun n c => n * 10 + (c.toNat - 48)) 0

/-- The regex `https?://[^\s]+` anchored at the head of `r`: returns the
length of the matched token (scheme plus the maximal non-whitespace run,
which must be non-empty). -/
def urlTokenLen (r : List Char) : Option Nat :=
  if listStartsWith "https://".data r then
    if ((r.drop 8).takeWhile (fun c => !isPySpace c)).isEmpty then none
    else some (8 + ((r.drop 8).takeWhile (fun c => !isPySpace c)).length)
  else if listStartsWith "http://".data r then
    if ((r.drop 7).takeWhile (fun c => !isPySpace c)).isEmpty then none
    else some (7 + ((r.drop 7).takeWhile (fun c => !isPySpace c)).length)
  else none

/-- `re.search(r'(https?://[^\s]+)', l)`: scan positions left to right for
the first URL token; returns the token. -/
def findUrlToken : List Char → Option (List Char)
  | [] => none
  | c :: rest =>
    match urlTokenLen (c :: rest) with
    | some n => some (List.take n (c :: rest))
    | none => findUrlToken rest

/-- Does `r` match `\s*-\s*(https?://[^\s]+)$`?  On success, returns the URL
group (which runs to the end of the string). -/
def sepUrlMatch (r : List Char) : Option (List Char) :=
  match r.dropWhile isPySpace with
  | '-' :: r2 =>
    let r3 := r2.dropWhile isPySpace
    match urlTokenLen r3 with
    | some n => if n = r3.length then some r3 else none
    | none => none
  | _ => none

/-- `re.search(r'(.+?)\s*-\s*(https?://[^\s]+)$', l)`: the lazy `(.+?)` makes
group 1 the *shortest* non-empty prefix whose remainder matches
`\s*-\s*URL$`.  `acc` is the reversed prefix consumed so far. -/
def titleUrlSplitAux : List Char → List Char → Option (List Char × List Char)
  | _, [] => none
  | acc, c :: rest =>
    match sepUrlMatch rest with
    | some url => some ((c :: acc).reverse, url)
    | none => titleUrlSplitAux (c :: acc) rest

def titleUrlSplit (l : List Char) : Option (List Char × List Char) := titleUrlSplitAux [] l

/-- Worker for `stripUrls`: scan one character at a time; a positive `k`
means `k` characters of a previously matched `\s*URL\s*` region remain to
be consumed.  At a fresh position, the greedy `\s*(https?://[^\s]+)\s*`
match (whitespace run, URL token, whitespace run) is attempted; on success
the whole region is dropped and scanning resumes after it, exactly like
`re.sub` with an empty replacement. -/
def stripUrlsGo : List Char → Nat → List Char
  | [], _ => []
  | _ :: rest, k + 1 => stripUrlsGo rest k
  | c :: rest, 0 =>
    let w := (c :: rest).takeWhile isPySpace
    let r := (c :: rest).drop w.length
    match urlTokenLen r with
    | some n =>
      let r2 := r.drop n
      stripUrlsGo rest (w.length + n + (r2.takeWhile isPySpace).length - 1)
    | none => c :: stripUrlsGo rest 0

/-- `re.sub(r'\s*(https?://[^\s]+)\s*', '', l)`: remove every URL token
together with surrounding whitespace, scanning left to right. -/
def stripUrls (l : List Char) : List Char := stripUrlsGo l 0

/-- `re.match(r'^(\d+)[\.\)]\s*(.+)', line)`.  Returns the parsed rank and
`group(2).strip()`.  (With greedy `\s*` backtracking, `group(2).strip()`
always equals the stripped remainder after the separator, and the match
succeeds precisely when that remainder is non-empty.) -/
def numberedMatch (l : List Char) : Option (Nat × List Char) :=
  let ds := l.takeWhile Char.isDigit
  if ds.isEmpty then none
  else
    match l.drop ds.length with
    | [] => none
    | sep :: rest =>
      if (sep == '.' || sep == ')') && !rest.isEmpty then
        some (digitsToNat ds, pyStrip rest)
      else none

/-- Descriptive-phrase prefixes rejected by `_is_likely_product_name`. -/
def rejectPats : List String :=
  ["features", "includes", "made from", "equipped with",
   "available in", "comes with", "designed", "key features"]

/-- `BaseLLMClient._is_likely_product_name`. -/
def is_likely_product_name (t : List Char) : Bool :=
  if t.length < 3 then false
  else
    let tl := t.map Char.toLower
    if rejectPats.any (fun p => listStartsWith p.data tl) then false
    else decide (3 ≤ t.length ∧ t.length ≤ 100)

/-- One line of the strict (numbered-list) extraction pass of
`BaseLLMClient.extract_rankings`. -/
def parseLine (line0 : List Char) : Option RankResult :=
  let line := pyStrip line0
  match numberedMatch line with
  | none => none
  | some (rank, rest) =>
    let it1 := rest.filter (fun c => c != '*')
    let it2 := it1.filter (fun c => c != '[' && c != ']')
    let itemText := pyStrip it2
    let ts : List Char × Option (List Char) :=
      match titleUrlSplit itemText with
      | some (t, u) => (pyStrip t, some (pyStrip u))
      | none =>
        match findUrlToken itemText with
        | some u => (pyStrip (stripUrls itemText), some u)
        | none => (itemText, none)
    if is_likely_product_name ts.1 then
      some { rank := rank, title := String.mk ts.1, description := none,
             source := ts.2.map String.mk }
    else none

def strictPass (lines : List (List Char)) : List RankResult := lines.filterMap parseLine

/-- `re.search(r'\*\*([^\*]+)\*\*', l)`: first position with `**`, a
non-empty run of non-asterisks, then `**`; returns group 1. -/
def boldSearch : List Char → Option (List Char)
  | [] => none
  | c :: rest =>
    match c, rest with
    | '*', '*' :: r =>
      let run := r.takeWhile (fun x => x != '*')
      if !run.isEmpty && (r.drop run.length).take 2 = ['*', '*'] then some run
      else boldSearch rest
    | _, _ => boldSearch rest

/-- One line of `BaseLLMClient._fallback_extraction`: bold-marked title
(stripped), URL searched on the whole stripped line. -/
def parseBold (line0 : List Char) : Option (List Char × Option (List Char)) :=
  let line := pyStrip line0
  match boldSearch line with
  | none => none
  | some t0 =>
    let title := pyStrip t0
    if is_likely_product_name title then some (title, findUrlToken line) else none

/-- `BaseLLMClient._fallback_extraction`: accepted bold titles are numbered
`len(ranked_items) + 1`, i.e. by order of appearance starting at 1. -/
def fallback_extraction (lines : List (List Char)) : List RankResult :=
  lines.foldl (fun acc line =>
    match parseBold line with
    | some (t, u) =>
      acc ++ [{ rank := acc.length + 1, title := String.mk t, description := none,
                source := u.map String.mk }]
    | none => acc) []

/-- The dedup loop of `extract_rankings`: keep the first occurrence of each
`title.lower().strip()` key. -/
def dedupAux : List String → List RankResult → List RankResult
  | _, [] => []
  | seen, x :: xs =>
    let k := lowerTrim x.title
    if k ∈ seen then dedupAux seen xs else x :: dedupAux (k :: seen) xs

/-- The renumbering loop of `extract_rankings` (`enumerate(unique_items, 1)`). -/
def renumberFrom : Nat → List RankResult → List RankResult
  | _, [] => []
  | n, x :: xs => { x with rank := n } :: renumberFrom (n + 1) xs

def linesOf (text : String) : List (List Char) := splitNl text.data

/-- The strict pass of `extract_rankings` applied to `text`. -/
def strictOf (text : String) : List RankResult := strictPass (linesOf text)

/-- `_fallback_extraction` applied to `text`. -/
def fallbackOf (text : String) : List RankResult := fallback_extraction (linesOf text)

/-- `BaseLLMClient.extract_rankings`: strict pass; if it accepted fewer than
3 items the result is *replaced* by the fallback pass; then dedup by
lower-cased/trimmed title and renumber sequentially from 1. -/
def extract_rankings (text : String) : List RankResult :=
  let items := if (strictOf text).length < 3 then fallbackOf text else strictOf text
  renumberFrom 1 (dedupAux [] items)

/-! ## EntityNormalizer / EntityMatcher (`rank_tracker.py`) -/

/-- The stop-word list of `KeywordRankTracker.normalize_title`, in source
order (the `str.replace` calls are applied sequentially in this order). -/
def stopWords : List String := ["coffee", "canister", "container", "jar", "vault", "storage"]

def removeStopWords (l : List Char) : List Char :=
  stopWords.foldl (fun acc w => replaceAll w.data acc) l

/-- `KeywordRankTracker.normalize_title`: lower-case, strip, remove each
stop word (sequential `replace`), collapse whitespace via
`' '.join(title.split())`. -/
def normalize_title (s : String) : String :=
  String.mk (joinSpace (pyWords (removeStopWords (pyStrip (s.data.map Char.toLower)))))

/-- Number of distinct tokens shared by the two normalized forms
(`len(set(a.split()) & set(b.split()))`). -/
def sharedTokenCount (a b : List Char) : Nat :=
  ((pyWords a).dedup.filter (fun w => w ∈ pyWords b)).length

/-- Python substring test `sub in l` (contiguous occurrence). -/
def hasSubstr (sub : List Char) : List Char → Bool
  | [] => listStartsWith sub []
  | c :: rest => listStartsWith sub (c :: rest) || hasSubstr sub rest

/-- The match relation applied per key inside
`KeywordRankTracker.find_similar_items`: substring containment between
normalized forms, or at least 2 shared tokens. -/
def titlesMatch (t other : String) : Bool :=
  let n := (normalize_title t).data
  let o := (normalize_title other).data
  (hasSubstr n o || hasSubstr o n) || decide (2 ≤ sharedTokenCount n o)

/-- `KeywordRankTracker.find_similar_items` (keys of `items_dict` passed as
a list, in dict insertion order). -/
def find_similar_items (title : String) (keys : List String) : List String :=
  keys.filter (fun k => titlesMatch title k)

/-! ## ConsensusAggregator (`rank_tracker.py`) -/

/-- `PlatformResponse` dataclass of `base_client.py`.  The Python float
`cost` is modelled as an exact rational; it is never used by the
aggregation logic. -/
structure PlatformResponse where
  platform : String
  model : String
  raw_text : String
  ranked_items : List RankResult
  input_tokens : Nat
  output_tokens : Nat
  cost : ℚ
  web_search_used : Bool := false
  error : Option String := none
deriving DecidableEq

/-- Python truthiness of `response.error` (`if response.error: continue`):
an absent error or an empty string is falsy. -/
def hasError (r : PlatformResponse) : Bool :=
  match r.error with
  | none => false
  | some s => s != ""

/-- One entry of the running `item_rankings` table of
`calculate_average_rankings`: dict key, first-seen original title,
appended ranks and source identifiers. -/
structure ConsensusRec where
  key : String
  title : String
  ranks : List Nat
  platforms : List String
deriving DecidableEq

/-- Append one occurrence (`ranks.append`, `platforms.append`). -/
def pushOcc (rank : Nat) (p : String) (r : ConsensusRec) : ConsensusRec :=
  { r with ranks := r.ranks ++ [rank], platforms := r.platforms ++ [p] }

/-- Update the first element satisfying `q` (a Python dict holds at most
one entry per key; the similarity scan breaks at the first match). -/
def updFirst {α : Type} (q : α → Bool) (f : α → α) : List α → List α
  | [] => []
  | x :: xs => if q x then f x :: xs else x :: updFirst q f xs

/-- The body of the per-item loop of
`KeywordRankTracker.calculate_average_rankings`: exact-key hit appends to
that entry; otherwise the first entry with an equal normalized key is
appended to; otherwise a new entry keyed by the lower-cased/trimmed title
is inserted at the end (dict insertion order). -/
def stepTable (table : List ConsensusRec) (p : String) (item : RankResult) :
    List ConsensusRec :=
  let tk := lowerTrim item.title
  if (table.find? (fun r => r.key == tk)).isSome then
    updFirst (fun r => r.key == tk) (pushOcc item.rank p) table
  else
    match table.find? (fun r => normalize_title r.key == normalize_title tk) with
    | some _ =>
      updFirst (fun r => normalize_title r.key == normalize_title tk)
        (pushOcc item.rank p) table
    | none => table ++ [{ key := tk, title := item.title, ranks := [item.rank],
                          platforms := [p] }]

/-- The occurrences fed to the aggregation table, in iteration order:
sources in mapping order, errored sources skipped, each source's items in
list order. -/
def occList (results : List (String × PlatformResponse)) : List (String × RankResult) :=
  results.flatMap (fun pr =>
    if hasError pr.2 then [] else pr.2.ranked_items.map (fun it => (pr.1, it)))

def buildTable (occs : List (String × RankResult)) : List ConsensusRec :=
  occs.foldl (fun t o => stepTable t o.1 o.2) []

/-- The nested source/item loop of `calculate_average_rankings`, as written
in the source. -/
def tableOfResults (results : List (String × PlatformResponse)) : List ConsensusRec :=
  results.foldl (fun t pr =>
    if hasError pr.2 then t
    else pr.2.ranked_items.foldl (fun t it => stepTable t pr.1 it) t) []

/-- Round half to even (Python's `round`), on exact rationals.  This is the
specification-level description of `round(x, 2)`'s rounding mode; the
executable aggregation below uses the integer computation `avgHundredths`,
proved to agree with it. -/
def roundHalfEven (q : ℚ) : ℤ :=
  if q - ⌊q⌋ < 1 / 2 then ⌊q⌋
  else if (1 : ℚ) / 2 < q - ⌊q⌋ then ⌊q⌋ + 1
  else if ⌊q⌋ % 2 = 0 then ⌊q⌋ else ⌊q⌋ + 1

/-- Python `round(x, 2)` (specification level). -/
def round2 (q : ℚ) : ℚ := (roundHalfEven (q * 100) : ℚ) / 100

/-- `round(sum(ranks) / len(ranks), 2)` expressed in exact hundredths
(`100 × round(mean, 2)`), computed with integer arithmetic: floor of
`sum*100 / len` with the remainder deciding the half-to-even correction. -/
def avgHundredths (ranks : List Nat) : Nat :=
  if 2 * (ranks.sum * 100 % ranks.length) < ranks.length then
    ranks.sum * 100 / ranks.length
  else if ranks.length < 2 * (ranks.sum * 100 % ranks.length) then
    ranks.sum * 100 / ranks.length + 1
  else if (ranks.sum * 100 / ranks.length) % 2 = 0 then
    ranks.sum * 100 / ranks.length
  else ranks.sum * 100 / ranks.length + 1

/-- One value of the `average_rankings` dict produced by
`calculate_average_rankings`, keyed by the record's display title.  The
two-decimal average rank is carried as `average_rank_x100`, its exact
value in hundredths. -/
structure AvgEntry where
  title : String
  average_rank_x100 : Nat
  appearances : Nat
  platforms : List String
  individual_ranks : List Nat
deriving DecidableEq

/-- The rounded average rank of an entry as a rational (e.g. `150 ↦ 1.5`). -/
def AvgEntry.avgQ (e : AvgEntry) : ℚ := (e.average_rank_x100 : ℚ) / 100

def finalizeRec (r : ConsensusRec) : AvgEntry :=
  { title := r.title, average_rank_x100 := avgHundredths r.ranks,
    appearances := r.ranks.length, platforms := r.platforms, individual_ranks := r.ranks }

/-- Stable insertion into a list sorted by ascending average rank: the new
element (originally leftmost) goes before existing elements of equal key,
matching Python's stable `sorted`.  (Ordering by hundredths is ordering by
the rounded average.) -/
def insertByAvg (x : AvgEntry) : List AvgEntry → List AvgEntry
  | [] => [x]
  | y :: ys =>
    if x.average_rank_x100 ≤ y.average_rank_x100 then x :: y :: ys
    else y :: insertByAvg x ys

/-- Stable sort by ascending `average_rank` (Python's `sorted` with key
`average_rank` is stable; insertion sort below is stable too). -/
def sortByAvg : List AvgEntry → List AvgEntry
  | [] => []
  | x :: xs => insertByAvg x (sortByAvg xs)

/-- `KeywordRankTracker.calculate_average_rankings`, with the output dict
(insertion-ordered) modelled as the sorted list of entries. -/
def calculate_average_rankings (results : List (String × PlatformResponse)) :
    List AvgEntry :=
  sortByAvg ((tableOfResults results).map finalizeRec)

/-- One entry of `comparison["items_by_platform"][platform]`. -/
structure PlatItem where
  rank : Nat
  title : String
  description : Option String
deriving DecidableEq

/-- One entry of `comparison["common_items"]`. -/
structure CommonItem where
  item : String
  platforms : List String
  count : Nat
deriving DecidableEq

/-- The entity views of the `comparison` dict built by
`KeywordRankTracker.compare_rankings`.  The presentational `summary`
metadata (model name, cost, web-search flag, error strings) is not part of
the entity views and is omitted. -/
structure Comparison where
  itemsByPlatform : List (String × List PlatItem)
  commonItems : List CommonItem
  uniqueItems : List (String × List String)
  averageRankings : List AvgEntry
deriving DecidableEq

/-- The per-item update of the `all_items` dict in `compare_rankings`:
scan for the first entry with an equal normalized key and append the
platform there; otherwise append to the exact-key entry (creating it at
the end if absent). -/
def allItemsStep (acc : List (String × List String)) (p : String) (key : String) :
    List (String × List String) :=
  match acc.find? (fun e => normalize_title e.1 == normalize_title key) with
  | some _ =>
    updFirst (fun e => normalize_title e.1 == normalize_title key)
      (fun e => (e.1, e.2 ++ [p])) acc
  | none =>
    if (acc.find? (fun e => e.1 == key)).isSome then
      updFirst (fun e => e.1 == key) (fun e => (e.1, e.2 ++ [p])) acc
    else acc ++ [(key, [p])]

/-- The `all_items` dict after folding in every non-errored source's items
(same iteration order as the source's nested loop). -/
def allItemsOf (results : List (String × PlatformResponse)) : List (String × List String) :=
  (occList results).foldl (fun acc o => allItemsStep acc o.1 (lowerTrim o.2.title)) []

/-- `KeywordRankTracker.compare_rankings` (entity views). -/
def compare_rankings (results : List (String × PlatformResponse)) : Comparison :=
  let active := results.filter (fun pr => !hasError pr.2)
  let itemsByPlatform := active.map (fun pr =>
    (pr.1, pr.2.ranked_items.map (fun it =>
      ({ rank := it.rank, title := it.title, description := it.description } : PlatItem))))
  let platformItems := active.map (fun pr =>
    (pr.1, pr.2.ranked_items.map (fun it => lowerTrim it.title)))
  let allItems := allItemsOf results
  let commonItems := (allItems.filter (fun e => 1 < e.2.length)).map (fun e =>
    ({ item := e.1, platforms := e.2, count := e.2.length } : CommonItem))
  let uniq := platformItems.filterMap (fun pe =>
    let u := pe.2.filter (fun it =>
      (((allItems.find? (fun e => normalize_title e.1 == normalize_title it)).map
          Prod.snd).getD []).dedup.length == 1)
    if u.isEmpty then none else some (pe.1, u))
  { itemsByPlatform := itemsByPlatform, commonItems := commonItems,
    uniqueItems := uniq, averageRankings := calculate_average_rankings results }

/-! ## FanOutOrchestrator (`KeywordRankTracker.query_all_platforms`) -/

/-- The client registry keys of `KeywordRankTracker.__init__`. -/
def registeredClients : List String := ["chatgpt", "perplexity", "gemini"]

/-- Sequential mode of `query_all_platforms`: requested platforms are
visited in list order, unregistered identifiers are skipped silently, and
each registered one gets the gateway's response (a gateway exception is
already materialised by the source as an error-flagged response, so the
gateway is modelled as a total function). -/
def query_all_sequential (gateway : String → PlatformResponse) (platforms : List String) :
    List (String × PlatformResponse) :=
  (platforms.filter (fun p => decide (p ∈ registeredClients))).map (fun p => (p, gateway p))

/-- Parallel mode of `query_all_platforms`: results are inserted in thread
completion order, abstracted as the `completionOrder` list (constrained in
the theorems to be a permutation of the registered requested platforms). -/
def query_all_parallel (gateway : String → PlatformResponse)
    (completionOrder : List String) : List (String × PlatformResponse) :=
  completionOrder.map (fun p => (p, gateway p))

/-! ## Specification notions for order-invariance of the aggregation -/

/-- The table key an occurrence would use (`item.title.lower().strip()`). -/
def occKey (o : String × RankResult) : String := lowerTrim o.2.title

/-- The normalized entity class of an occurrence. -/
def occNorm (o : String × RankResult) : String := normalize_title (occKey o)

/-- The ranks contributed by all occurrences of normalized class `n`, in
occurrence order. -/
def classRanks (n : String) (occs : List (String × RankResult)) : List Nat :=
  (occs.filter (fun o => occNorm o == n)).map (fun o => o.2.rank)

/-- Invariant tying the running table of `calculate_average_rankings` to
the occurrences folded in so far: normalized keys are pairwise distinct,
each record holds exactly its class's ranks (non-empty, in occurrence
order), and every folded occurrence has a record for its class. -/
def TableInv (occs : List (String × RankResult)) (table : List ConsensusRec) : Prop :=
  (table.map (fun r => normalize_title r.key)).Nodup ∧
  (∀ r ∈ table, r.ranks = classRanks (normalize_title r.key) occs ∧ r.ranks ≠ []) ∧
  (∀ o ∈ occs, ∃ r ∈ table, normalize_title r.key = occNorm o)

/-! ## Concrete fixtures used by the claims -/

/-- A successful gateway response carrying the given ranked items. -/
def mkResp (items : List (Nat × String)) : PlatformResponse :=
  { platform := "x", model := "m", raw_text := "", cost := 0, input_tokens := 0,
    output_tokens := 0, web_search_used := false, error := none,
    ranked_items := items.map (fun it => { rank := it.1, title := it.2 }) }

def exC1text : String :=
  "1. Fellow Atmos Vacuum Canister - https://fellowproducts.com/atmos\n2. Coffee Gator Container"

def exC4text : String := "1. Coffee Gator\n2. Gator\n3. Acme Box"

def exC7text : String := "Here are picks:\n**Fellow Atmos**\n**Coffee Gator**\n**OXO POP**"

def exC2 : List (String × PlatformResponse) :=
  [("p1", mkResp [(1, "alpha beta")]), ("p2", mkResp [(1, "alpha")])]

def exC3a : List (String × PlatformResponse) :=
  [("p1", mkResp [(1, "Coffee Gator")]), ("p2", mkResp [(2, "Gator Canister")])]

def exC3b : List (String × PlatformResponse) :=
  [("p2", mkResp [(2, "Gator Canister")]), ("p1", mkResp [(1, "Coffee Gator")])]

def exC5 : List (String × PlatformResponse) :=
  [("sourceA", mkResp [(1, "Airscape Coffee Canister"), (2, "Coffee Gator")]),
   ("sourceB", mkResp [(1, "Coffee Gator Canister"), (2, "Airscape")])]

/-- An error-flagged response, as synthesised by `query_all_platforms`
for a failed gateway call. -/
def exErrResp : PlatformResponse :=
  { platform := "bad", model := "", raw_text := "", cost := 0, input_tokens := 0,
    output_tokens := 0, web_search_used := false, error := some "boom",
    ranked_items := [{ rank := 1, title := "Ghost Item" }] }

/-! ## Lemmas about the extraction post-processing -/

theorem range1_concat (s n : Nat) : List.range' s (n + 1) = List.range' s n ++ [s + n] := by
  simpa using @List.range'_concat 1 s n

/-- The renumbering loop makes ranks consecutive from `n`. -/
theorem renumberFrom_ranks (l : List RankResult) :
    ∀ n, (renumberFrom n l).map RankResult.rank = List.range' n l.length := by
  induction l with
  | nil => intro n; simp [renumberFrom]
  | cons x xs ih => intro n; simp [renumberFrom, List.range'_succ, ih (n + 1)]

theorem renumberFrom_length (l : List RankResult) :
    ∀ n, (renumberFrom n l).length = l.length := by
  induction l with
  | nil => intro n; simp [renumberFrom]
  | cons x xs ih => intro n; simp [renumberFrom, ih (n + 1)]

theorem renumberFrom_titles (l : List RankResult) :
    ∀ n, (renumberFrom n l).map (fun r => lowerTrim r.title) =
      l.map (fun r => lowerTrim r.title) := by
  induction l with
  | nil => intro n; simp [renumberFrom]
  | cons x xs ih => intro n; simp [renumberFrom, ih (n + 1)]

/-- The dedup loop yields pairwise-distinct lower-cased/trimmed title keys,
none of which was already seen. -/
theorem dedupAux_nodup (l : List RankResult) : ∀ seen : List String,
    ((dedupAux seen l).map (fun r => lowerTrim r.title)).Nodup ∧
    ∀ k ∈ (dedupAux seen l).map (fun r => lowerTrim r.title), k ∉ seen := by
  induction l with
  | nil => intro seen; simp [dedupAux]
  | cons x xs ih =>
    intro seen
    by_cases h : lowerTrim x.title ∈ seen
    · simpa [dedupAux, h] using ih seen
    · have hd : dedupAux seen (x :: xs) = x :: dedupAux (lowerTrim x.title :: seen) xs := by
        simp [dedupAux, h]
      have ih2 := ih (lowerTrim x.title :: seen)
      rw [hd]
      refine ⟨?_, ?_⟩
      · rw [List.map_cons, List.nodup_cons]
        exact ⟨fun hmem => (ih2.2 _ hmem) (List.mem_cons_self _ _), ih2.1⟩
      · intro k hk
        rw [List.map_cons, List.mem_cons] at hk
        rcases hk with rfl | hk
        · exact h
        · exact fun hs => (ih2.2 _ hk) (List.mem_cons_of_mem _ hs)

/-- Ranks assigned by the fallback pass are `1..K` in order of appearance
(each accepted bold title gets rank `len(ranked_items) + 1`). -/
theorem fallback_ranks (lines : List (List Char)) :
    (fallback_extraction lines).map RankResult.rank =
      List.range' 1 (fallback_extraction lines).length := by
  suffices h : ∀ acc : List RankResult,
      acc.map RankResult.rank = List.range' 1 acc.length →
      (lines.foldl (fun acc line =>
        match parseBold line with
        | some (t, u) =>
          acc ++ [{ rank := acc.length + 1, title := String.mk t, description := none,
                    source := u.map String.mk }]
        | none => acc) acc).map RankResult.rank =
      List.range' 1 (lines.foldl (fun acc line =>
        match parseBold line with
        | some (t, u) =>
          acc ++ [{ rank := acc.length + 1, title := String.mk t, description := none,
                    source := u.map String.mk }]
        | none => acc) acc).length by
    exact h [] (by simp)
  induction lines with
  | nil => intro acc hacc; simpa using hacc
  | cons line rest ih =>
    intro acc hacc
    simp only [List.foldl_cons]
    cases hpb : parseBold line with
    | none => exact ih acc hacc
    | some tu =>
      rcases tu with ⟨tt, uu⟩
      apply ih
      simp only [List.map_append, List.length_append, List.map_cons, List.map_nil,
        List.length_cons, List.length_nil, hacc]
      rw [show acc.length + (0 + 1) = acc.length + 1 by omega, range1_concat]
      simp
      omega

/-! ## Lemmas about the aggregation table -/

/-- A successful `find?` splits the list around the first hit, and
`updFirst` rewrites exactly that element. -/
theorem find?_split {α : Type} (q : α → Bool) (l : List α) (a : α)
    (h : l.find? q = some a) :
    ∃ l1 l2, l = l1 ++ a :: l2 ∧ (∀ x ∈ l1, q x = false) ∧ q a = true ∧
      ∀ f : α → α, updFirst q f l = l1 ++ f a :: l2 := by
  induction l with
  | nil => simp [List.find?] at h
  | cons x xs ih =>
    by_cases hx : q x
    · simp only [List.find?, hx] at h
      obtain rfl : x = a := by simpa using h
      exact ⟨[], xs, by simp, by simp, hx, fun f => by simp [updFirst, hx]⟩
    · have hx' : q x = false := by simpa using hx
      simp only [List.find?, hx'] at h
      obtain ⟨l1, l2, rfl, hl1, ha, hupd⟩ := ih h
      refine ⟨x :: l1, l2, by simp, ?_, ha, fun f => ?_⟩
      · intro y hy
        rcases List.mem_cons.mp hy with rfl | hy
        · exact hx'
        · exact hl1 y hy
      · simp [updFirst, hx', hupd f]

/-- Appending an occurrence to the first record matched by `q` keeps the
key sequence and grows the total number of recorded ranks by one. -/
theorem updFirst_push_spec (q : ConsensusRec → Bool) (table : List ConsensusRec)
    (a : ConsensusRec) (rank : Nat) (p : String) (h : table.find? q = some a) :
    (updFirst q (pushOcc rank p) table).map ConsensusRec.key =
      table.map ConsensusRec.key ∧
    ((updFirst q (pushOcc rank p) table).map (fun r => r.ranks.length)).sum =
      ((table.map (fun r => r.ranks.length)).sum) + 1 := by
  obtain ⟨l1, l2, rfl, -, -, hupd⟩ := find?_split q _ a h
  rw [hupd _]
  constructor
  · simp [pushOcc]
  · simp [pushOcc, List.sum_append]
    omega

theorem occList_append (rs1 rs2 : List (String × PlatformResponse)) :
    occList (rs1 ++ rs2) = occList rs1 ++ occList rs2 := by
  simp [occList]

/-- The nested source/item loop equals the fold over the flattened
occurrence list. -/
theorem tableFold_eq (rs : List (String × PlatformResponse)) :
    ∀ t : List ConsensusRec,
      rs.foldl (fun t pr =>
        if hasError pr.2 then t
        else pr.2.ranked_items.foldl (fun t it => stepTable t pr.1 it) t) t =
      (occList rs).foldl (fun t o => stepTable t o.1 o.2) t := by
  induction rs with
  | nil => intro t; simp [occList]
  | cons pr rest ih =>
    intro t
    simp only [List.foldl_cons]
    by_cases h : hasError pr.2
    · rw [if_pos h, ih]
      have : occList (pr :: rest) = occList rest := by simp [occList, h]
      rw [this]
    · rw [if_neg h, ih]
      have hocc : occList (pr :: rest) =
          (pr.2.ranked_items.map (fun it => (pr.1, it))) ++ occList rest := by
        simp [occList, h]
      rw [hocc, List.foldl_append, List.foldl_map]

theorem tableOfResults_eq (rs : List (String × PlatformResponse)) :
    tableOfResults rs = buildTable (occList rs) :=
  tableFold_eq rs []

/-! ## The table partitions occurrences by normalized class -/

theorem classRanks_append (n : String) (occs : List (String × RankResult))
    (o : String × RankResult) :
    classRanks n (occs ++ [o]) =
      classRanks n occs ++ (if occNorm o = n then [o.2.rank] else []) := by
  by_cases h : occNorm o = n
  · simp [classRanks, List.filter_append, h]
  · simp [classRanks, List.filter_append, h]

/-- Appending one occurrence of class `occNorm o` to the first record
matched by `q` preserves the invariant, provided `q` only matches records
of that class. -/
theorem updFirst_inv_aux (occs : List (String × RankResult))
    (table : List ConsensusRec) (o : String × RankResult)
    (q : ConsensusRec → Bool) (a : ConsensusRec)
    (hfind : table.find? q = some a)
    (hq : ∀ x, q x = true → normalize_title x.key = occNorm o)
    (hinv : TableInv occs table) :
    TableInv (occs ++ [o]) (updFirst q (pushOcc o.2.rank o.1) table) := by
  obtain ⟨hnd, hranks, hcov⟩ := hinv
  obtain ⟨l1, l2, heq, hl1, hqa, hupd⟩ := find?_split q table a hfind
  subst heq
  rw [hupd]
  have hna : normalize_title a.key = occNorm o := hq a hqa
  have hmapeq : (l1 ++ pushOcc o.2.rank o.1 a :: l2).map (fun r => normalize_title r.key) =
      (l1 ++ a :: l2).map (fun r => normalize_title r.key) := by
    simp [pushOcc]
  rw [List.map_append, List.map_cons] at hnd
  have hnd' := hnd
  rw [List.nodup_append] at hnd'
  obtain ⟨-, hnd2, hdisj⟩ := hnd'
  rw [List.nodup_cons] at hnd2
  have h1 : ∀ r ∈ l1, normalize_title r.key ≠ occNorm o := by
    intro r hr heq2
    have hmem : normalize_title r.key ∈ l1.map (fun r => normalize_title r.key) :=
      List.mem_map_of_mem _ hr
    have : normalize_title r.key ∉
        normalize_title a.key :: l2.map (fun r => normalize_title r.key) := hdisj hmem
    exact this (by rw [heq2, ← hna]; exact List.mem_cons_self _ _)
  have h2 : ∀ r ∈ l2, normalize_title r.key ≠ occNorm o := by
    intro r hr heq2
    apply hnd2.1
    rw [hna, ← heq2]
    exact List.mem_map_of_mem _ hr
  refine ⟨?_, ?_, ?_⟩
  · rw [hmapeq, List.map_append, List.map_cons]
    exact hnd
  · intro r hr
    rcases List.mem_append.mp hr with hr1 | hr2
    · obtain ⟨he, hne⟩ := hranks r (List.mem_append_left _ hr1)
      refine ⟨?_, hne⟩
      rw [classRanks_append, if_neg (fun hh => h1 r hr1 hh.symm), List.append_nil, he]
    · rcases List.mem_cons.mp hr2 with rfl | hr3
      · obtain ⟨he, -⟩ := hranks a (List.mem_append_right _ (List.mem_cons_self _ _))
        constructor
        · show a.ranks ++ [o.2.rank] = _
          rw [show normalize_title (pushOcc o.2.rank o.1 a).key = occNorm o from hna,
            classRanks_append, if_pos rfl, he, hna]
        · simp [pushOcc]
      · obtain ⟨he, hne⟩ := hranks r
          (List.mem_append_right _ (List.mem_cons_of_mem _ hr3))
        refine ⟨?_, hne⟩
        rw [classRanks_append, if_neg (fun hh => h2 r hr3 hh.symm), List.append_nil, he]
  · intro o2 ho2
    rcases List.mem_append.mp ho2 with ho2 | ho2
    · obtain ⟨r, hr, hnr⟩ := hcov o2 ho2
      rcases List.mem_append.mp hr with hr1 | hr2
      · exact ⟨r, List.mem_append_left _ hr1, hnr⟩
      · rcases List.mem_cons.mp hr2 with heq | hr3
        · refine ⟨pushOcc o.2.rank o.1 a,
            List.mem_append_right _ (List.mem_cons_self _ _), ?_⟩
          rw [heq] at hnr
          exact hnr
        · exact ⟨r, List.mem_append_right _ (List.mem_cons_of_mem _ hr3), hnr⟩
    · have heq : o2 = o := List.mem_singleton.mp ho2
      refine ⟨pushOcc o.2.rank o.1 a,
        List.mem_append_right _ (List.mem_cons_self _ _), ?_⟩
      rw [heq]
      exact hna

/-- Folding one occurrence into the table preserves the invariant. -/
theorem stepTable_inv (occs : List (String × RankResult))
    (table : List ConsensusRec) (o : String × RankResult)
    (hinv : TableInv occs table) :
    TableInv (occs ++ [o]) (stepTable table o.1 o.2) := by
  cases hk : table.find? (fun r => r.key == lowerTrim o.2.title) with
  | some a =>
    have hstep : stepTable table o.1 o.2 =
        updFirst (fun r => r.key == lowerTrim o.2.title) (pushOcc o.2.rank o.1) table := by
      simp [stepTable, hk]
    rw [hstep]
    refine updFirst_inv_aux occs table o _ a hk ?_ hinv
    intro x hx
    have hx' : x.key = lowerTrim o.2.title := by simpa using hx
    rw [occNorm, occKey, ← hx']
  | none =>
    cases hf : table.find? (fun r =>
        normalize_title r.key == normalize_title (lowerTrim o.2.title)) with
    | some a =>
      have hstep : stepTable table o.1 o.2 =
          updFirst (fun r => normalize_title r.key == normalize_title (lowerTrim o.2.title))
            (pushOcc o.2.rank o.1) table := by
        simp [stepTable, hk, hf]
      rw [hstep]
      refine updFirst_inv_aux occs table o _ a hf ?_ hinv
      intro x hx
      have hx' : normalize_title x.key = normalize_title (lowerTrim o.2.title) := by
        simpa using hx
      exact hx'
    | none =>
      obtain ⟨hnd, hranks, hcov⟩ := hinv
      have hstep : stepTable table o.1 o.2 =
          table ++ [{ key := lowerTrim o.2.title, title := o.2.title,
                      ranks := [o.2.rank], platforms := [o.1] }] := by
        simp [stepTable, hk, hf]
      rw [hstep]
      have hnone : ∀ r ∈ table, normalize_title r.key ≠ occNorm o := by
        intro r hr heq
        have := List.find?_eq_none.mp hf r hr
        exact this (by simpa using heq)
      have hclassnil : classRanks (occNorm o) occs = [] := by
        have hfilter : occs.filter (fun o2 => occNorm o2 == occNorm o) = [] := by
          rw [List.filter_eq_nil_iff]
          intro o2 ho2 hbeq
          obtain ⟨r, hr, hnr⟩ := hcov o2 ho2
          exact hnone r hr (by rw [hnr]; simpa using hbeq)
        rw [classRanks, hfilter, List.map_nil]
      refine ⟨?_, ?_, ?_⟩
      · rw [List.map_append]
        refine List.Nodup.append hnd (List.nodup_singleton _) ?_
        intro x hx1 hx2
        obtain ⟨r, hr, rfl⟩ := List.mem_map.mp hx1
        have hx2' : normalize_title r.key = occNorm o := by
          simpa using hx2
        exact hnone r hr hx2'
      · intro r hr
        rcases List.mem_append.mp hr with hr1 | hr2
        · obtain ⟨he, hne⟩ := hranks r hr1
          exact ⟨by rw [classRanks_append, if_neg (fun hh => hnone r hr1 hh.symm),
            List.append_nil, he], hne⟩
        · have heq := List.mem_singleton.mp hr2
          subst heq
          refine ⟨?_, by simp⟩
          show [o.2.rank] = classRanks (occNorm o) (occs ++ [o])
          rw [classRanks_append, if_pos rfl, hclassnil, List.nil_append]
      · intro o2 ho2
        rcases List.mem_append.mp ho2 with ho2 | ho2
        · obtain ⟨r, hr, hnr⟩ := hcov o2 ho2
          exact ⟨r, List.mem_append_left _ hr, hnr⟩
        · have heq : o2 = o := List.mem_singleton.mp ho2
          refine ⟨_, List.mem_append_right _ (List.mem_cons_self _ _), ?_⟩
          rw [heq]
          rfl

/-- The table built from any occurrence list satisfies the invariant. -/
theorem buildTable_inv (occs : List (String × RankResult)) :
    TableInv occs (buildTable occs) := by
  induction occs using List.reverseRecOn with
  | nil =>
    refine ⟨by simp [buildTable], ?_, ?_⟩ <;> intro x hx <;> simp [buildTable] at hx
  | append_singleton occs o ih =>
    have hb : buildTable (occs ++ [o]) = stepTable (buildTable occs) o.1 o.2 := by
      rw [buildTable, List.foldl_append, List.foldl_cons, List.foldl_nil, buildTable]
    rw [hb]
    exact stepTable_inv occs (buildTable occs) o ih

/-! ## Lemmas about the stable sort by average rank -/

theorem mem_insertByAvg (x y : AvgEntry) (l : List AvgEntry) :
    y ∈ insertByAvg x l ↔ y = x ∨ y ∈ l := by
  induction l with
  | nil => simp [insertByAvg]
  | cons z zs ih =>
    by_cases h : x.average_rank_x100 ≤ z.average_rank_x100
    · simp [insertByAvg, h]
    · simp [insertByAvg, h, ih]
      tauto

theorem insertByAvg_pairwise (x : AvgEntry) (l : List AvgEntry)
    (h : l.Pairwise (fun a b => a.average_rank_x100 ≤ b.average_rank_x100)) :
    (insertByAvg x l).Pairwise (fun a b => a.average_rank_x100 ≤ b.average_rank_x100) := by
  induction l with
  | nil => simp [insertByAvg]
  | cons y ys ih =>
    rcases List.pairwise_cons.mp h with ⟨hy, hys⟩
    by_cases hxy : x.average_rank_x100 ≤ y.average_rank_x100
    · rw [insertByAvg, if_pos hxy, List.pairwise_cons]
      refine ⟨?_, h⟩
      intro z hz
      rcases List.mem_cons.mp hz with rfl | hz
      · exact hxy
      · exact le_trans hxy (hy z hz)
    · rw [insertByAvg, if_neg hxy, List.pairwise_cons]
      refine ⟨?_, ih hys⟩
      intro z hz
      rcases (mem_insertByAvg x z ys).mp hz with rfl | hz
      · exact le_of_lt (not_le.mp hxy)
      · exact hy z hz

theorem insertByAvg_perm (x : AvgEntry) (l : List AvgEntry) :
    (insertByAvg x l).Perm (x :: l) := by
  induction l with
  | nil => simp [insertByAvg]
  | cons y ys ih =>
    by_cases h : x.average_rank_x100 ≤ y.average_rank_x100
    · rw [insertByAvg, if_pos h]
    · rw [insertByAvg, if_neg h]
      exact (ih.cons y).trans (List.Perm.swap x y ys)

theorem sortByAvg_pairwise (l : List AvgEntry) :
    (sortByAvg l).Pairwise (fun a b => a.average_rank_x100 ≤ b.average_rank_x100) := by
  induction l with
  | nil => simp [sortByAvg]
  | cons x xs ih => exact insertByAvg_pairwise x _ ih

theorem sortByAvg_perm (l : List AvgEntry) : (sortByAvg l).Perm l := by
  induction l with
  | nil => simp [sortByAvg]
  | cons x xs ih => exact (insertByAvg_perm x _).trans (ih.cons x)

theorem filter_insertByAvg_eq (v : Nat) (x : AvgEntry) (l : List AvgEntry)
    (hx : x.average_rank_x100 = v) :
    (insertByAvg x l).filter (fun e => decide (e.average_rank_x100 = v)) =
      x :: l.filter (fun e => decide (e.average_rank_x100 = v)) := by
  induction l with
  | nil => simp [insertByAvg, List.filter_cons, hx]
  | cons y ys ih =>
    by_cases hxy : x.average_rank_x100 ≤ y.average_rank_x100
    · rw [insertByAvg, if_pos hxy, List.filter_cons, if_pos (by simpa using hx)]
    · have hy : ¬ y.average_rank_x100 = v := by
        have hlt : y.average_rank_x100 < x.average_rank_x100 := not_le.mp hxy
        rw [hx] at hlt
        exact ne_of_lt hlt
      rw [insertByAvg, if_neg hxy, List.filter_cons, if_neg (by simpa using hy), ih,
        List.filter_cons, if_neg (by simpa using hy)]

theorem filter_insertByAvg_ne (v : Nat) (x : AvgEntry) (l : List AvgEntry)
    (hx : ¬ x.average_rank_x100 = v) :
    (insertByAvg x l).filter (fun e => decide (e.average_rank_x100 = v)) =
      l.filter (fun e => decide (e.average_rank_x100 = v)) := by
  induction l with
  | nil => simp [insertByAvg, List.filter_cons, hx]
  | cons y ys ih =>
    by_cases hxy : x.average_rank_x100 ≤ y.average_rank_x100
    · rw [insertByAvg, if_pos hxy, List.filter_cons, if_neg (by simpa using hx)]
    · rw [insertByAvg, if_neg hxy, List.filter_cons, ih, List.filter_cons]

/-- The sort is stable: within each class of equal (rounded) average rank,
the sorted output preserves the table's first-seen insertion order. -/
theorem sortByAvg_filter (v : Nat) (l : List AvgEntry) :
    (sortByAvg l).filter (fun e => decide (e.average_rank_x100 = v)) =
      l.filter (fun e => decide (e.average_rank_x100 = v)) := by
  induction l with
  | nil => simp [sortByAvg]
  | cons x xs ih =>
    by_cases hx : x.average_rank_x100 = v
    · rw [sortByAvg, filter_insertByAvg_eq v x _ hx, ih, List.filter_cons,
        if_pos (by simpa using hx)]
    · rw [sortByAvg, filter_insertByAvg_ne v x _ hx, ih, List.filter_cons,
        if_neg (by simpa using hx)]

/-! ## The integer hundredths computation agrees with `round(x, 2)` -/

theorem roundHalfEven_natCast_div (s n : ℕ) (hn : 0 < n) :
    roundHalfEven ((s : ℚ) / n) =
      if 2 * (s % n) < n then (s / n : ℕ)
      else if n < 2 * (s % n) then (s / n : ℕ) + 1
      else if (s / n) % 2 = 0 then (s / n : ℕ) else (s / n : ℕ) + 1 := by
  have hn' : (0 : ℚ) < n := by exact_mod_cast hn
  have hq : (s : ℚ) / n = ((s / n : ℕ) : ℚ) + ((s % n : ℕ) : ℚ) / n := by
    have h0 : (s : ℚ) = ((n * (s / n) + s % n : ℕ) : ℚ) := by
      rw [Nat.div_add_mod]
    rw [h0]
    push_cast
    field_simp
    ring
  have hfr0 : (0 : ℚ) ≤ ((s % n : ℕ) : ℚ) / n := by positivity
  have hfr1 : ((s % n : ℕ) : ℚ) / n < 1 := by
    rw [div_lt_one hn']
    exact_mod_cast Nat.mod_lt s hn
  have hfloor : ⌊(s : ℚ) / n⌋ = (s / n : ℕ) := by
    rw [hq, add_comm, Int.floor_add_nat,
      Int.floor_eq_zero_iff.mpr ⟨hfr0, hfr1⟩, zero_add]
  have hsub : (s : ℚ) / n - (⌊(s : ℚ) / n⌋ : ℚ) = ((s % n : ℕ) : ℚ) / n := by
    rw [hfloor, hq]
    simp only [Int.cast_natCast]
    ring
  have hc1 : (((s % n : ℕ) : ℚ) / n < 1 / 2) ↔ (2 * (s % n) < n) := by
    rw [div_lt_div_iff hn' (by norm_num : (0 : ℚ) < 2), one_mul]
    constructor
    · intro h
      have : ((s % n) * 2 : ℕ) < n := by exact_mod_cast h
      omega
    · intro h
      exact_mod_cast show ((s % n) * 2 : ℕ) < n by omega
  have hc2 : ((1 : ℚ) / 2 < ((s % n : ℕ) : ℚ) / n) ↔ (n < 2 * (s % n)) := by
    rw [div_lt_div_iff (by norm_num : (0 : ℚ) < 2) hn', one_mul]
    constructor
    · intro h
      have : n < ((s % n) * 2 : ℕ) := by exact_mod_cast h
      omega
    · intro h
      exact_mod_cast show n < ((s % n) * 2 : ℕ) by omega
  have hc3 : ((⌊(s : ℚ) / n⌋ : ℤ) % 2 = 0) ↔ ((s / n) % 2 = 0) := by
    rw [hfloor]
    omega
  rw [roundHalfEven, hsub]
  by_cases h1 : 2 * (s % n) < n
  · rw [if_pos (hc1.mpr h1), if_pos h1, hfloor]
  · rw [if_neg (fun hh => h1 (hc1.mp hh)), if_neg h1]
    by_cases h2 : n < 2 * (s % n)
    · rw [if_pos (hc2.mpr h2), if_pos h2, hfloor]
      push_cast
      ring
    · rw [if_neg (fun hh => h2 (hc2.mp hh)), if_neg h2]
      by_cases h3 : (s / n) % 2 = 0
      · rw [if_pos (hc3.mpr h3), if_pos h3, hfloor]
      · rw [if_neg (fun hh => h3 (hc3.mp hh)), if_neg h3, hfloor]
        push_cast
        ring

/-- The executable hundredths computation is exactly `100 × round(mean, 2)`
with round-half-to-even on exact rationals. -/
theorem avgHundredths_eq_round2 (ranks : List Nat) (h : ranks ≠ []) :
    (avgHundredths ranks : ℚ) / 100 =
      round2 ((ranks.sum : ℚ) / (ranks.length : ℚ)) := by
  have hn : 0 < ranks.length := List.length_pos.mpr h
  have hmul : ((ranks.sum : ℚ) / (ranks.length : ℚ)) * 100 =
      ((ranks.sum * 100 : ℕ) : ℚ) / (ranks.length : ℚ) := by
    push_cast
    ring
  rw [round2, hmul, roundHalfEven_natCast_div _ _ hn, avgHundredths]
  split_ifs <;> simp only [Int.cast_natCast]

/-! ## Claims about the extraction pipeline -/

/-- C1 (counterexample): on the text
`"1. Fellow Atmos Vacuum Canister - https://fellowproducts.com/atmos\n2. Coffee Gator Container"`
`extract_rankings` does *not* return two entities: the strict pass accepts
only 2 items, which is fewer than 3, so the result is replaced by the
fallback pass, which finds no bold-marked titles. -/
theorem claim_C1_counterexample : ¬ (extract_rankings exC1text).length = 2 := by decide

/-- C1 (amended): on that text the strict pass alone accepts exactly the
two claimed entities (rank 1 "Fellow Atmos Vacuum Canister" with the URL,
rank 2 "Coffee Gator Container" with no URL), but because fewer than 3
items were accepted, `extract_rankings` replaces them with the (empty)
fallback result and returns the empty sequence. -/
theorem claim_C1_amended :
    strictOf exC1text =
      [{ rank := 1, title := "Fellow Atmos Vacuum Canister", description := none,
         source := some "https://fellowproducts.com/atmos" },
       { rank := 2, title := "Coffee Gator Container", description := none,
         source := none }] ∧
    extract_rankings exC1text = [] := by
  exact ⟨by decide, by decide⟩

/-- C4 (counterexample): for the text `"1. Coffee Gator\n2. Gator\n3. Acme Box"`
the result of `extract_rankings` contains two entities ("Coffee Gator" and
"Gator") whose `normalize_title` forms are both `"gator"`: deduplication
uses the lower-cased/trimmed title, not the normalized title. -/
theorem claim_C4_counterexample :
    ¬ ((extract_rankings exC4text).map (fun r => normalize_title r.title)).Nodup := by
  decide

/-- C4 (amended): in the sequence returned by `extract_rankings` no two
entities have equal *lower-cased, trimmed* titles (the deduplication key);
equality of `normalize_title` forms is not prevented. -/
theorem claim_C4_amended (t : String) :
    ((extract_rankings t).map (fun r => lowerTrim r.title)).Nodup := by
  unfold extract_rankings
  rw [renumberFrom_titles]
  exact (dedupAux_nodup _ []).1

/-- C6: for every input text, `extract_rankings` (a total function, so no
exception is possible) returns ranks exactly `1, 2, ..., K` in order, and
if neither pass matches any line the result is the empty sequence. -/
theorem claim_C6 (t : String) :
    (extract_rankings t).map RankResult.rank =
      List.range' 1 (extract_rankings t).length ∧
    (strictOf t = [] ∧ fallbackOf t = [] → extract_rankings t = []) := by
  constructor
  · unfold extract_rankings
    rw [renumberFrom_ranks, renumberFrom_length]
  · rintro ⟨hs, hf⟩
    simp [extract_rankings, hs, hf, dedupAux, renumberFrom]

theorem claim_C6_witness :
    strictOf "just words" = [] ∧ fallbackOf "just words" = [] ∧
    extract_rankings "just words" = [] :=
  ⟨by decide, by decide, (claim_C6 "just words").2 ⟨by decide, by decide⟩⟩

/-- C7: whenever the strict pass accepts fewer than 3 entities, the result
of `extract_rankings` is the post-processed fallback output; the fallback
numbers accepted bold-marked titles by order of appearance starting at 1;
and on `"Here are picks:\n**Fellow Atmos**\n**Coffee Gator**\n**OXO POP**"`
extraction returns exactly the three bold titles ranked 1, 2, 3. -/
theorem claim_C7 :
    (∀ t : String, (strictOf t).length < 3 →
      extract_rankings t = renumberFrom 1 (dedupAux [] (fallbackOf t))) ∧
    (∀ lines : List (List Char),
      (fallback_extraction lines).map RankResult.rank =
        List.range' 1 (fallback_extraction lines).length) ∧
    extract_rankings exC7text =
      [{ rank := 1, title := "Fellow Atmos", description := none, source := none },
       { rank := 2, title := "Coffee Gator", description := none, source := none },
       { rank := 3, title := "OXO POP", description := none, source := none }] := by
  refine ⟨?_, fallback_ranks, by decide⟩
  intro t h
  simp [extract_rankings, h]

theorem claim_C7_witness :
    (strictOf "**Fellow Atmos**").length < 3 ∧
    extract_rankings "**Fellow Atmos**" =
      renumberFrom 1 (dedupAux [] (fallbackOf "**Fellow Atmos**")) :=
  ⟨by decide, claim_C7.1 "**Fellow Atmos**" (by decide)⟩

/-! ## Claims about the aggregation -/

/-- C2 (counterexample): with existing record key "alpha beta" and incoming
title "alpha", the `find_similar_items` relation holds ("alpha" is a
substring of "alpha beta" after normalization), yet
`calculate_average_rankings` does *not* append: it creates a second record,
because its merge test is *equality* of normalized titles. -/
theorem claim_C2_counterexample :
    find_similar_items "alpha" ["alpha beta"] = ["alpha beta"] ∧
    (tableOfResults exC2).map (fun r => (r.key, r.ranks)) =
      [("alpha beta", [1]), ("alpha", [1])] := by
  exact ⟨by decide, by decide⟩

/-- C2 (amended): during aggregation an incoming entity is appended to an
existing consensus record if and only if some existing key has an *equal*
`normalize_title` form (the key sequence is unchanged and exactly one rank
is added); otherwise a new record keyed by the entity's lower-cased,
trimmed title is appended at the end. -/
theorem claim_C2_amended (table : List ConsensusRec) (p : String) (item : RankResult) :
    ((∃ r ∈ table, normalize_title r.key = normalize_title (lowerTrim item.title)) →
      (stepTable table p item).map ConsensusRec.key = table.map ConsensusRec.key ∧
      ((stepTable table p item).map (fun r => r.ranks.length)).sum =
        ((table.map (fun r => r.ranks.length)).sum) + 1) ∧
    ((¬ ∃ r ∈ table, normalize_title r.key = normalize_title (lowerTrim item.title)) →
      stepTable table p item =
        table ++ [{ key := lowerTrim item.title, title := item.title,
                    ranks := [item.rank], platforms := [p] }]) := by
  constructor
  · intro hex
    by_cases hk : (table.find? (fun r => r.key == lowerTrim item.title)).isSome
    · obtain ⟨a, ha⟩ := Option.isSome_iff_exists.mp hk
      have hstep : stepTable table p item =
          updFirst (fun r => r.key == lowerTrim item.title) (pushOcc item.rank p) table := by
        simp [stepTable, ha]
      rw [hstep]
      exact updFirst_push_spec _ _ a item.rank p ha
    · obtain ⟨r0, hr0, hnorm⟩ := hex
      have hf2 : (table.find? (fun r =>
          normalize_title r.key == normalize_title (lowerTrim item.title))).isSome :=
        List.find?_isSome.mpr ⟨r0, hr0, by simpa using hnorm⟩
      obtain ⟨a, ha⟩ := Option.isSome_iff_exists.mp hf2
      have hk' : (table.find? (fun r => r.key == lowerTrim item.title)) = none := by
        cases hfk : table.find? (fun r => r.key == lowerTrim item.title) with
        | none => rfl
        | some b => exact absurd (by simp [hfk]) hk
      have hstep : stepTable table p item =
          updFirst (fun r => normalize_title r.key == normalize_title (lowerTrim item.title))
            (pushOcc item.rank p) table := by
        simp [stepTable, hk', ha]
      rw [hstep]
      exact updFirst_push_spec _ _ a item.rank p ha
  · intro hex
    have hf2 : (table.find? (fun r =>
        normalize_title r.key == normalize_title (lowerTrim item.title))) = none :=
      List.find?_eq_none.mpr (fun x hx hbeq => hex ⟨x, hx, by simpa using hbeq⟩)
    have hf1 : (table.find? (fun r => r.key == lowerTrim item.title)) = none :=
      List.find?_eq_none.mpr (fun x hx hbeq => by
        have : x.key = lowerTrim item.title := by simpa using hbeq
        exact hex ⟨x, hx, by rw [this]⟩)
    simp [stepTable, hf1, hf2]

theorem claim_C2_amended_witness :
    (∃ r ∈ tableOfResults [("p1", mkResp [(1, "alpha beta")])],
      normalize_title r.key =
        normalize_title (lowerTrim (RankResult.mk 1 "Alpha  Beta" none none).title)) ∧
    (stepTable (tableOfResults [("p1", mkResp [(1, "alpha beta")])]) "p2"
        (RankResult.mk 1 "Alpha  Beta" none none)).map ConsensusRec.key =
      (tableOfResults [("p1", mkResp [(1, "alpha beta")])]).map ConsensusRec.key :=
  ⟨by decide,
   ((claim_C2_amended (tableOfResults [("p1", mkResp [(1, "alpha beta")])]) "p2"
      (RankResult.mk 1 "Alpha  Beta" none none)).1 (by decide)).1⟩

/-- C3 (counterexample): the two results mappings of `exC3a`/`exC3b` hold
the same per-source responses, merely folded in a different order (as a
parallel completion order may produce), yet `compare_rankings` returns
different outputs: the merged record keeps the first-seen key/title and
ranks in fold order. -/
theorem claim_C3_counterexample :
    exC3a.Perm exC3b ∧ compare_rankings exC3a ≠ compare_rankings exC3b := by
  constructor
  · exact List.Perm.swap _ _ _
  · decide

/-- C3 (amended): aggregation output is *not* invariant under permutations
of the fold order (record keys, display titles and list orders follow the
first-seen order), but the consensus content is: for every record of the
one fold there is a record of the other with the same normalized key whose
individual ranks are a permutation — hence equal appearance count and
equal rounded average rank.  Outputs coincide exactly when both modes fold
the sources in the same order. -/
theorem claim_C3_amended (rs1 rs2 : List (String × PlatformResponse))
    (hperm : rs1.Perm rs2) :
    ∀ r1 ∈ tableOfResults rs1, ∃ r2 ∈ tableOfResults rs2,
      normalize_title r2.key = normalize_title r1.key ∧
      r2.ranks.Perm r1.ranks ∧
      avgHundredths r2.ranks = avgHundredths r1.ranks ∧
      r2.ranks.length = r1.ranks.length := by
  intro r1 hr1
  rw [tableOfResults_eq] at hr1
  have hocc : (occList rs1).Perm (occList rs2) := by
    simpa [occList] using hperm.flatMap_right
      (fun pr => if hasError pr.2 then [] else pr.2.ranked_items.map (fun it => (pr.1, it)))
  have inv1 := buildTable_inv (occList rs1)
  have inv2 := buildTable_inv (occList rs2)
  obtain ⟨hr_eq, hr_ne⟩ := inv1.2.1 r1 hr1
  have hne : classRanks (normalize_title r1.key) (occList rs1) ≠ [] := hr_eq ▸ hr_ne
  obtain ⟨o, ho, hno⟩ : ∃ o ∈ occList rs1, occNorm o = normalize_title r1.key := by
    by_contra hcon
    push_neg at hcon
    apply hne
    have hfilter : (occList rs1).filter
        (fun o2 => occNorm o2 == normalize_title r1.key) = [] := by
      rw [List.filter_eq_nil_iff]
      intro o2 ho2 hbeq
      exact hcon o2 ho2 (by simpa using hbeq)
    rw [classRanks, hfilter, List.map_nil]
  have ho2 : o ∈ occList rs2 := hocc.mem_iff.mp ho
  obtain ⟨r2, hr2, hnr2⟩ := inv2.2.2 o ho2
  have h2 := (inv2.2.1 r2 hr2).1
  have hp : r2.ranks.Perm r1.ranks := by
    rw [h2, hr_eq, hnr2, hno]
    exact (hocc.symm.filter _).map _
  refine ⟨r2, by rwa [tableOfResults_eq], ?_, hp, ?_, hp.length_eq⟩
  · rw [hnr2, hno]
  · have hs : r2.ranks.sum = r1.ranks.sum := hp.sum_eq
    have hl : r2.ranks.length = r1.ranks.length := hp.length_eq
    simp [avgHundredths, hs, hl]

theorem claim_C3_amended_witness :
    ∃ r2 ∈ tableOfResults exC3b,
      normalize_title r2.key =
        normalize_title (ConsensusRec.mk "coffee gator" "Coffee Gator" [1, 2] ["p1", "p2"]).key ∧
      r2.ranks.Perm (ConsensusRec.mk "coffee gator" "Coffee Gator" [1, 2] ["p1", "p2"]).ranks ∧
      avgHundredths r2.ranks =
        avgHundredths (ConsensusRec.mk "coffee gator" "Coffee Gator" [1, 2] ["p1", "p2"]).ranks ∧
      r2.ranks.length =
        (ConsensusRec.mk "coffee gator" "Coffee Gator" [1, 2] ["p1", "p2"]).ranks.length :=
  claim_C3_amended exC3a exC3b (List.Perm.swap _ _ _) _ (by decide)

/-- C5: for source A `[(1,"Airscape Coffee Canister"), (2,"Coffee Gator")]`
and source B `[(1,"Coffee Gator Canister"), (2,"Airscape")]`, aggregation
merges the two Coffee-Gator titles into one record with ranks `[2,1]` and
average `1.5`, merges the two Airscape titles into one record with ranks
`[1,2]` and average `1.5`, and both records appear in the common-items
view with 2 contributing sources. -/
theorem claim_C5 :
    calculate_average_rankings exC5 =
      [{ title := "Airscape Coffee Canister", average_rank_x100 := 150, appearances := 2,
         platforms := ["sourceA", "sourceB"], individual_ranks := [1, 2] },
       { title := "Coffee Gator", average_rank_x100 := 150, appearances := 2,
         platforms := ["sourceA", "sourceB"], individual_ranks := [2, 1] }] ∧
    (calculate_average_rankings exC5).map AvgEntry.avgQ = [3 / 2, 3 / 2] ∧
    (compare_rankings exC5).commonItems =
      [{ item := "airscape coffee canister", platforms := ["sourceA", "sourceB"], count := 2 },
       { item := "coffee gator", platforms := ["sourceA", "sourceB"], count := 2 }] := by
  refine ⟨by decide, ?_, by decide⟩
  rw [show calculate_average_rankings exC5 =
      [{ title := "Airscape Coffee Canister", average_rank_x100 := 150, appearances := 2,
         platforms := ["sourceA", "sourceB"], individual_ranks := [1, 2] },
       { title := "Coffee Gator", average_rank_x100 := 150, appearances := 2,
         platforms := ["sourceA", "sourceB"], individual_ranks := [2, 1] }] from by decide]
  norm_num [AvgEntry.avgQ]

/-- C8: the aggregation output is sorted by ascending (two-decimal rounded)
average rank; it is a permutation of the finalized table; within each class
of equal average rank the first-seen insertion order of the table is
preserved (stability); and every output entry's `average_rank` is the
rounded arithmetic mean of its recorded individual ranks. -/
theorem claim_C8 (rs : List (String × PlatformResponse)) :
    (calculate_average_rankings rs).Pairwise
      (fun a b => a.average_rank_x100 ≤ b.average_rank_x100) ∧
    (calculate_average_rankings rs).Perm ((tableOfResults rs).map finalizeRec) ∧
    (∀ v : Nat, (calculate_average_rankings rs).filter (fun e => decide (e.average_rank_x100 = v)) =
      ((tableOfResults rs).map finalizeRec).filter (fun e => decide (e.average_rank_x100 = v))) ∧
    (∀ e ∈ calculate_average_rankings rs,
      e.average_rank_x100 = avgHundredths e.individual_ranks ∧
      (e.individual_ranks ≠ [] →
        e.avgQ = round2 ((e.individual_ranks.sum : ℚ) / (e.individual_ranks.length : ℚ))) ∧
      e.appearances = e.individual_ranks.length) := by
  refine ⟨sortByAvg_pairwise _, sortByAvg_perm _, fun v => sortByAvg_filter v _, ?_⟩
  intro e he
  have hmem : e ∈ (tableOfResults rs).map finalizeRec :=
    (sortByAvg_perm _).mem_iff.mp he
  obtain ⟨r, -, rfl⟩ := List.mem_map.mp hmem
  exact ⟨rfl, fun hne => avgHundredths_eq_round2 r.ranks hne, rfl⟩

theorem claim_C8_witness :
    ((calculate_average_rankings exC5).filter (fun e => decide (e.average_rank_x100 = 150)) =
      ((tableOfResults exC5).map finalizeRec).filter (fun e => decide (e.average_rank_x100 = 150))) ∧
    ([2, 1] : List Nat) ≠ [] ∧
    ({ title := "Coffee Gator", average_rank_x100 := 150, appearances := 2,
       platforms := ["sourceA", "sourceB"], individual_ranks := [2, 1] } : AvgEntry).avgQ =
      round2 ((([2, 1] : List Nat).sum : ℚ) / (([2, 1] : List Nat).length : ℚ)) :=
  ⟨(claim_C8 exC5).2.2.1 150, by decide,
   (((claim_C8 exC5).2.2.2 _ (by decide)).2.1 (by decide))⟩

/-- C9: a source whose response carries a non-empty error contributes no
entity records: removing it from the results mapping leaves both the full
`compare_rankings` entity views and `calculate_average_rankings` unchanged
(so with no other sources, all views are those of the empty mapping). -/
theorem claim_C9 (pre post : List (String × PlatformResponse)) (p : String)
    (resp : PlatformResponse) (h : hasError resp = true) :
    compare_rankings (pre ++ (p, resp) :: post) = compare_rankings (pre ++ post) ∧
    calculate_average_rankings (pre ++ (p, resp) :: post) =
      calculate_average_rankings (pre ++ post) := by
  have hocc : occList (pre ++ (p, resp) :: post) = occList (pre ++ post) := by
    simp [occList, h]
  have htab : tableOfResults (pre ++ (p, resp) :: post) = tableOfResults (pre ++ post) := by
    rw [tableOfResults_eq, tableOfResults_eq, hocc]
  have hca : calculate_average_rankings (pre ++ (p, resp) :: post) =
      calculate_average_rankings (pre ++ post) := by
    unfold calculate_average_rankings
    rw [htab]
  have hact : (pre ++ (p, resp) :: post).filter (fun pr => !hasError pr.2) =
      (pre ++ post).filter (fun pr => !hasError pr.2) := by
    simp [h]
  refine ⟨?_, hca⟩
  unfold compare_rankings allItemsOf
  rw [hocc, hact, hca]

theorem claim_C9_witness :
    hasError exErrResp = true ∧
    compare_rankings [("ok", mkResp [(1, "Alpha Beta")]), ("bad", exErrResp)] =
      compare_rankings [("ok", mkResp [(1, "Alpha Beta")])] :=
  ⟨by decide,
   by simpa using
     (claim_C9 [("ok", mkResp [(1, "Alpha Beta")])] [] "bad" exErrResp (by decide)).1⟩

/-- C10: in both execution modes the result mapping has a key for exactly
those requested platform identifiers that have a registered client; a
requested identifier with no registered client is silently omitted (no
entry at all is produced for it, error-flagged or otherwise). -/
theorem claim_C10 (gateway : String → PlatformResponse)
    (platforms completionOrder : List String)
    (h : completionOrder.Perm
      (platforms.filter (fun q => decide (q ∈ registeredClients)))) (p : String) :
    (p ∈ (query_all_parallel gateway completionOrder).map Prod.fst ↔
      p ∈ platforms ∧ p ∈ registeredClients) ∧
    (p ∈ (query_all_sequential gateway platforms).map Prod.fst ↔
      p ∈ platforms ∧ p ∈ registeredClients) := by
  have hpar : (query_all_parallel gateway completionOrder).map Prod.fst = completionOrder := by
    rw [query_all_parallel, List.map_map]
    exact List.map_id completionOrder
  have hseq : (query_all_sequential gateway platforms).map Prod.fst =
      platforms.filter (fun q => decide (q ∈ registeredClients)) := by
    rw [query_all_sequential, List.map_map]
    exact List.map_id _
  constructor
  · rw [hpar, h.mem_iff, List.mem_filter]
    simp
  · rw [hseq, List.mem_filter]
    simp

theorem claim_C10_witness :
    (["chatgpt", "gemini"] : List String).Perm
      ((["gemini", "unknown", "chatgpt"] : List String).filter
        (fun q => decide (q ∈ registeredClients))) ∧
    ("gemini" ∈ (query_all_parallel (fun _ => mkResp []) ["chatgpt", "gemini"]).map Prod.fst ↔
      "gemini" ∈ (["gemini", "unknown", "chatgpt"] : List String) ∧
      "gemini" ∈ registeredClients) ∧
    ("unknown" ∈ (query_all_sequential (fun _ => mkResp [])
        ["gemini", "unknown", "chatgpt"]).map Prod.fst ↔
      "unknown" ∈ (["gemini", "unknown", "chatgpt"] : List String) ∧
      "unknown" ∈ registeredClients) :=
  ⟨by decide,
   (claim_C10 (fun _ => mkResp []) ["gemini", "unknown", "chatgpt"]
     ["chatgpt", "gemini"] (by decide) "gemini").1,
   (claim_C10 (fun _ => mkResp []) ["gemini", "unknown", "chatgpt"]
     ["chatgpt", "gemini"] (by decide) "unknown").2⟩

end RankTracker
